import Mathlib

/-!
Verification development for the MT5 copier bridge (`main.py`).

The development shallowly embeds the core pipeline of the program:

* the regex-based pattern extractor (`SYMBOL_PATTERN`, `SIDE_PATTERN`,
  `LOT_PATTERN`, `_extract_single_record`, `_extract_positions_from_texts`),
* the snapshot builder (`Counter(...)` over `(symbol, side, lot)` triples),
* the reconciler (`_emit_deltas`, which uses `collections.Counter`
  subtraction),
* the debounce cache and atomic publisher (`_write_signal`),
* the driver tick (`run` body: capture, emit, update `prev_positions`).

Modelling conventions:

* Machine floats (`float(...)` lot sizes) are modelled as exact rationals.
  All lot values arising in the program are parsed from decimal literals
  matched by `LOT_PATTERN` (`\d+(\.\d+)?`), for which rational arithmetic
  and float arithmetic agree on every comparison and equality the program
  performs (no float arithmetic ever happens, only parse and compare).
* Python regex search is modelled by dedicated executable search functions,
  one per compiled pattern, implementing leftmost search with the
  backtracking preference order of the Python `re` engine for exactly these
  three patterns.  Texts in scope are ASCII, so `str.upper`, `\w`, `\s` and
  `\d` are modelled by their ASCII restrictions.
* `time.time()` values are rationals supplied by an oracle; filesystem
  success or failure of `Path.write_text` and `os.replace` is supplied by
  boolean oracles, which lets failing publishes be expressed.
-/

/-! ## Character classes (ASCII restrictions of Python `re` classes) -/

/-- ASCII uppercase letter, the class `[A-Z]` of `SYMBOL_PATTERN`. -/
def isUpperAZ (c : Char) : Bool :=
  'A' ≤ c && c ≤ 'Z'

/-- Python `\w` on ASCII input: letters, digits and underscore. -/
def isWordChar (c : Char) : Bool :=
  c.isAlpha || c.isDigit || c = '_'

/-- Python `\s` on ASCII input. -/
def isPySpace (c : Char) : Bool :=
  c = ' ' || c = '\t' || c = '\n' || c = '\r' || c = '\x0b' || c = '\x0c'

/-- Python `\d` on ASCII input. -/
def isPyDigit (c : Char) : Bool :=
  c.isDigit

/-- `str.upper` on ASCII input, applied characterwise. -/
def upperChars (cs : List Char) : List Char :=
  cs.map Char.toUpper

/-- Case-insensitive prefix test: does `l` start with `pat` (an uppercase
pattern), comparing characters after uppercasing?  Models the
`re.IGNORECASE` literal matching of `LOT_PATTERN`'s label alternatives. -/
def startsCI (pat : List Char) (l : List Char) : Bool :=
  match pat, l with
  | [], _ => true
  | _ :: _, [] => false
  | p :: ps, c :: cs => (c.toUpper = p) && startsCI ps cs

/-- Word-boundary test for a position whose following character is a word
character: `\b` holds there iff the preceding character (if any) is not a
word character.  `prev` is the character just before the position. -/
def boundaryBefore (prev : Option Char) : Bool :=
  match prev with
  | none => true
  | some c => !isWordChar c

/-- Word-boundary test for a position whose preceding character is a word
character: `\b` holds there iff the following character (if any) is not a
word character.  `rest` is the remainder of the text at the position. -/
def boundaryAfter (rest : List Char) : Bool :=
  match rest with
  | [] => true
  | c :: _ => !isWordChar c

/-! ## `SYMBOL_PATTERN = \b([A-Z]{3,7}(?:USD|JPY|EUR|GBP|AUD|NZD|CHF|CAD)?)\b`

The searched text is already uppercased by `_extract_single_record`. -/

/-- The eight quote-currency suffix alternatives of `SYMBOL_PATTERN`.
They are pairwise distinct three-letter strings, so at most one of them can
match at a given position; the alternation order is therefore immaterial and
they are tried in pattern order. -/
def symbolSuffixes : List (List Char) :=
  [['U', 'S', 'D'], ['J', 'P', 'Y'], ['E', 'U', 'R'], ['G', 'B', 'P'],
   ['A', 'U', 'D'], ['N', 'Z', 'D'], ['C', 'H', 'F'], ['C', 'A', 'D']]

/-- Try to finish a `SYMBOL_PATTERN` match whose `[A-Z]{3,7}` part took the
first `n` characters of `l`: first (greedy `(?:...)?`) try each three-letter
suffix followed by `\b`, then the suffix-less variant followed by `\b`.
Returns the text of capture group 1 on success. -/
def symbolTailAt (l : List Char) (n : Nat) : Option (List Char) :=
  let core := l.take n
  let rest := l.drop n
  match symbolSuffixes.find? (fun suf => decide (rest.take 3 = suf)) with
  | some suf =>
      if boundaryAfter (rest.drop 3) then some (core ++ suf)
      else if boundaryAfter rest then some core
      else none
  | none =>
      if boundaryAfter rest then some core
      else none

/-- Try a `SYMBOL_PATTERN` match starting at the head of `l`, with `prev`
the character preceding the position.  The `{3,7}` quantifier is greedy, so
lengths are tried from 7 down to 3. -/
def symbolHere (prev : Option Char) (l : List Char) : Option (List Char) :=
  if boundaryBefore prev then
    [7, 6, 5, 4, 3].firstM (fun n =>
      if (l.take n).length = n && (l.take n).all isUpperAZ then
        symbolTailAt l n
      else none)
  else none

/-- Leftmost search loop for `SYMBOL_PATTERN`: models
`SYMBOL_PATTERN.search(text)` returning `group(1)`. -/
def symbolSearchGo (prev : Option Char) : List Char → Option (List Char)
  | [] => none
  | c :: rest =>
    match symbolHere prev (c :: rest) with
    | some g => some g
    | none => symbolSearchGo (some c) rest

/-- `SYMBOL_PATTERN.search(text)` and `group(1)` (on uppercased text). -/
def symbolSearch (cs : List Char) : Option (List Char) :=
  symbolSearchGo none cs

/-! ## `SIDE_PATTERN = \b(BUY|SELL)\b` (IGNORECASE; searched text is
already uppercased, so the literals are matched directly). -/

/-- Try a `SIDE_PATTERN` match starting at the head of `l`; the alternation
tries `BUY` before `SELL`. -/
def sideHere (prev : Option Char) (l : List Char) : Option (List Char) :=
  if boundaryBefore prev then
    if l.take 3 = ['B', 'U', 'Y'] && boundaryAfter (l.drop 3) then
      some ['B', 'U', 'Y']
    else if l.take 4 = ['S', 'E', 'L', 'L'] && boundaryAfter (l.drop 4) then
      some ['S', 'E', 'L', 'L']
    else none
  else none

/-- Leftmost search loop for `SIDE_PATTERN`. -/
def sideSearchGo (prev : Option Char) : List Char → Option (List Char)
  | [] => none
  | c :: rest =>
    match sideHere prev (c :: rest) with
    | some g => some g
    | none => sideSearchGo (some c) rest

/-- `SIDE_PATTERN.search(text)` and `group(1)` (on uppercased text). -/
def sideSearch (cs : List Char) : Option (List Char) :=
  sideSearchGo none cs

/-! ## `LOT_PATTERN = (?:lot|volume|vol)?\s*[:=]?\s*(\d+(?:\.\d+)?)`
(IGNORECASE; searched on the original, non-uppercased text). -/

/-- Match `\s*[:=]?\s*(\d+(?:\.\d+)?)` at the head of `l`, returning the
text of group 1.  The whitespace runs, the optional separator and the digit
run involve pairwise disjoint character classes, so the backtracking search
of the Python engine reduces to this deterministic scan: skip whitespace,
take at most one `:`/`=`, skip whitespace, then require at least one digit;
a fractional part `.\d+` is appended greedily when present. -/
def numAt (l : List Char) : Option (List Char) :=
  let l1 := l.dropWhile isPySpace
  let l2 :=
    match l1 with
    | c :: rest => if c = ':' || c = '=' then rest else l1
    | [] => l1
  let l3 := l2.dropWhile isPySpace
  let ds := l3.takeWhile isPyDigit
  if ds.isEmpty then none
  else
    match l3.drop ds.length with
    | '.' :: r2 =>
        let fs := r2.takeWhile isPyDigit
        if fs.isEmpty then some ds else some (ds ++ '.' :: fs)
    | _ => some ds

/-- Try a `LOT_PATTERN` match starting at the head of `l`.  The optional
label group is greedy and its alternatives are tried in pattern order
(`lot`, `volume`, `vol`), falling back to the label-less variant. -/
def lotHere (l : List Char) : Option (List Char) :=
  match (if startsCI ['L', 'O', 'T'] l then numAt (l.drop 3) else none) with
  | some g => some g
  | none =>
    match (if startsCI ['V', 'O', 'L', 'U', 'M', 'E'] l then numAt (l.drop 6) else none) with
    | some g => some g
    | none =>
      match (if startsCI ['V', 'O', 'L'] l then numAt (l.drop 3) else none) with
      | some g => some g
      | none => numAt l

/-- Leftmost search loop for `LOT_PATTERN` (no boundary conditions, so no
previous-character context is needed). -/
def lotSearchGo : List Char → Option (List Char)
  | [] => none
  | c :: rest =>
    match lotHere (c :: rest) with
    | some g => some g
    | none => lotSearchGo rest

/-- `LOT_PATTERN.search(text)` and `group(1)` (on the original text). -/
def lotSearch (cs : List Char) : Option (List Char) :=
  lotSearchGo cs

/-! ## Numeric parsing: `float(lot_match.group(1))`

The matched text has shape `\d+(\.\d+)?`; it is interpreted as an exact
rational (see the modelling conventions above). -/

/-- Value of a run of decimal digits. -/
def natOfDigits (ds : List Char) : Nat :=
  ds.foldl (fun n c => n * 10 + (c.toNat - 48)) 0

/-- `float(s)` for `s` of shape `\d+(\.\d+)?`, as an exact rational. -/
def ratOfNumStr (l : List Char) : ℚ :=
  let ip := l.takeWhile (fun c => decide (c ≠ '.'))
  match l.drop ip.length with
  | '.' :: fs => (natOfDigits ip : ℚ) + (natOfDigits fs : ℚ) / (10 : ℚ) ^ fs.length
  | _ => (natOfDigits ip : ℚ)

/-! ## `Position` and `_extract_single_record` -/

/-- The frozen dataclass `Position(symbol, side, lot)`.  Equality and
hashing in the source are by value on all three fields; `DecidableEq` plays
that role here. -/
structure Position where
  symbol : String
  side : String
  lot : ℚ
deriving DecidableEq, Repr

/-- `_extract_single_record(text)`: search the uppercased text for a symbol
and a side, the original text for a lot, require all three and a strictly
positive lot.  (`group(1).upper()` is the identity here because symbol and
side are matched on the uppercased text already.) -/
def extractSingleChars (cs : List Char) : Option Position :=
  let up := upperChars cs
  match symbolSearch up, sideSearch up, lotSearch cs with
  | some sym, some sd, some num =>
      let lot := ratOfNumStr num
      if lot ≤ 0 then none
      else some ⟨String.mk sym, String.mk sd, lot⟩
  | _, _, _ => none

/-- `_extract_single_record` on a `String` fragment. -/
def extractSingle (text : String) : Option Position :=
  extractSingleChars text.data

/-! ## `_extract_positions_from_texts` -/

/-- Splitting on the class `[\n|,;]` as `re.split` does: every delimiter
occurrence splits, and consecutive delimiters produce empty pieces. -/
def splitOnDelims : List Char → List (List Char)
  | [] => [[]]
  | c :: rest =>
    match splitOnDelims rest with
    | [] => [[c]]
    | t :: ts =>
      if c = '\n' || c = '|' || c = ',' || c = ';' then [] :: t :: ts
      else (c :: t) :: ts

/-- `t.strip()` is non-empty, i.e. `t` has a non-whitespace character;
this is the token filter `if t.strip()`. -/
def hasNonSpace (t : List Char) : Bool :=
  t.any (fun c => !isPySpace c)

/-- Deduplication loop of `_extract_positions_from_texts`: keep the first
record for each `(symbol, side, lot)` key, preserving order. -/
def dedupRecords (seen : List (String × String × ℚ)) : List Position → List Position
  | [] => []
  | r :: rest =>
    if (r.symbol, r.side, r.lot) ∈ seen then dedupRecords seen rest
    else r :: dedupRecords ((r.symbol, r.side, r.lot) :: seen) rest

/-- `_extract_positions_from_texts(texts)`: per-fragment parses, then
sliding windows of up to 6 tokens over the `"\n"`-joined, delimiter-split
token stream, then order-preserving deduplication. -/
def extractPositionsFromTexts (texts : List String) : List Position :=
  let joined := List.intercalate ['\n'] (texts.map String.data)
  let records1 := texts.filterMap extractSingle
  let tokens := (splitOnDelims joined).filter hasNonSpace
  let windowRecs := (List.range tokens.length).filterMap (fun idx =>
    extractSingleChars (List.intercalate [' '] ((tokens.drop idx).take 6)))
  dedupRecords [] (records1 ++ windowRecs)

/-! ## Snapshots: `collections.Counter` over `(symbol, side, lot)` keys

`_read_live_positions` builds `Counter((p.symbol, p.side, p.lot) for p in
positions)`.  A `Counter` is an insertion-ordered mapping from keys to
counts; the insertion order is observable through `.items()` and drives the
emission order in `_emit_deltas`, so the model keeps the underlying ordered
association list.  Counts are naturals: every counter the program builds
counts occurrences (`Counter(iterable)`) or keeps the positive part of a
subtraction, so the negative-count branch of `Counter.__sub__` (which scans
the right operand for keys with negative counts) can never fire and is
omitted. -/

/-- A `(symbol, side, lot)` key of the snapshot counter. -/
abbrev Key := String × String × ℚ

/-- Insertion-ordered counter: association list of keys and counts. -/
structure Counter where
  items : List (Key × Nat)
deriving DecidableEq, Repr

/-- The empty counter, `Counter()`. -/
def Counter.empty : Counter := ⟨[]⟩

/-- `c[k]`: count of `k`, `0` when absent. -/
def Counter.get (c : Counter) (k : Key) : Nat :=
  match c.items.find? (fun e => decide (e.1 = k)) with
  | some e => e.2
  | none => 0

/-- Keys of the counter in insertion order (`list(c)`). -/
def Counter.keysList (c : Counter) : List Key :=
  c.items.map Prod.fst

/-- Well-formedness: each key occurs at most once.  Every counter built by
`collections.Counter` satisfies this. -/
def Counter.Wf (c : Counter) : Prop :=
  c.keysList.Nodup

instance (c : Counter) : Decidable c.Wf := by
  unfold Counter.Wf; infer_instance

/-- Increment the count of `k`, inserting it at the end when new; this is
one step of `Counter(iterable)` accumulation. -/
def bumpItems (k : Key) : List (Key × Nat) → List (Key × Nat)
  | [] => [(k, 1)]
  | e :: rest => if e.1 = k then (e.1, e.2 + 1) :: rest else e :: bumpItems k rest

/-- Counter increment `c[k] += 1`. -/
def Counter.incr (c : Counter) (k : Key) : Counter :=
  ⟨bumpItems k c.items⟩

/-- `Counter(ks)`: count occurrences of each key, insertion-ordered by
first occurrence. -/
def Counter.ofList (ks : List Key) : Counter :=
  ks.foldl Counter.incr Counter.empty

/-- The snapshot built by `_read_live_positions` from extracted records. -/
def snapshotOf (positions : List Position) : Counter :=
  Counter.ofList (positions.map (fun p => (p.symbol, p.side, p.lot)))

/-- `Counter.__sub__` (as used with nonnegative counts): iterate the left
operand's items in order and keep each key whose count exceeds the right
operand's count for it, with the positive difference. -/
def Counter.sub (a b : Counter) : Counter :=
  ⟨a.items.filterMap (fun e =>
    if b.get e.1 < e.2 then some (e.1, e.2 - b.get e.1) else none)⟩

/-! ## Events and `_emit_deltas` event sequence -/

/-- A signal payload: the dict passed to `_write_signal`.  An open signal
carries symbol, side and lot; a close signal carries only the symbol. -/
inductive Event where
  | openEv (symbol side : String) (lot : ℚ)
  | closeEv (symbol : String)
deriving DecidableEq, Repr

/-- The open payload built for key `k` in `_emit_deltas`. -/
def keyOpen (k : Key) : Event :=
  Event.openEv k.1 k.2.1 k.2.2

/-- The close payload built for key `k` in `_emit_deltas`: only the symbol
survives (`{"action": "CLOSE", "symbol": symbol}`). -/
def keyClose (k : Key) : Event :=
  Event.closeEv k.1

/-- Is the event a close signal? -/
def isCloseEv : Event → Bool
  | .closeEv _ => true
  | .openEv _ _ _ => false

/-- The sequence of payloads `_emit_deltas` passes to `_write_signal`, in
program order: for each key of `current - previous` (in that counter's item
order) one open per unit of excess, then for each key of
`previous - current` one close per unit of excess. -/
def eventsOf (prev cur : Counter) : List Event :=
  ((cur.sub prev).items.map (fun e => List.replicate e.2 (keyOpen e.1))).flatten ++
  ((prev.sub cur).items.map (fun e => List.replicate e.2 (keyClose e.1))).flatten

/-- Occurrences of payload `e` in a payload list. -/
def countEvent (es : List Event) (e : Event) : Nat :=
  es.countP (fun x => decide (x = e))

/-- Total count held by a counter (number of per-unit events it emits). -/
def Counter.total (c : Counter) : Nat :=
  (c.items.map Prod.snd).sum

/-! ## Counter lemmas -/

lemma Counter.get_cons (e : Key × Nat) (l : List (Key × Nat)) (k : Key) :
    Counter.get ⟨e :: l⟩ k = if e.1 = k then e.2 else Counter.get ⟨l⟩ k := by
  by_cases h : e.1 = k
  · simp [Counter.get, List.find?_cons, h]
  · simp [Counter.get, List.find?_cons, h]

lemma Counter.get_eq_zero (l : List (Key × Nat)) (k : Key)
    (h : k ∉ l.map Prod.fst) : Counter.get ⟨l⟩ k = 0 := by
  induction l with
  | nil => rfl
  | cons e rest ih =>
    simp only [List.map_cons, List.mem_cons] at h
    push_neg at h
    rw [Counter.get_cons, if_neg (fun hh => h.1 hh.symm), ih h.2]

lemma keys_filterMap_keep_sublist (f : Key × Nat → Option Nat) (l : List (Key × Nat)) :
    ((l.filterMap (fun e => (f e).map (fun n => (e.1, n)))).map Prod.fst).Sublist
      (l.map Prod.fst) := by
  induction l with
  | nil => simp
  | cons e rest ih =>
    cases hf : f e with
    | none => simpa [List.filterMap_cons, hf] using ih.cons e.1
    | some n => simpa [List.filterMap_cons, hf] using ih.cons₂ e.1

lemma Counter.sub_items (a b : Counter) :
    (a.sub b).items = a.items.filterMap (fun e =>
      ((if b.get e.1 < e.2 then some (e.2 - b.get e.1) else none)).map
        (fun n => (e.1, n))) := by
  unfold Counter.sub
  simp only [Counter.mk.injEq]
  apply List.filterMap_congr
  intro e _
  by_cases h : b.get e.1 < e.2 <;> simp [h]

lemma Counter.sub_keys_sublist (a b : Counter) :
    (a.sub b).keysList.Sublist a.keysList := by
  rw [Counter.keysList, Counter.sub_items]
  exact keys_filterMap_keep_sublist _ _

lemma Counter.sub_wf (a b : Counter) (ha : a.Wf) : (a.sub b).Wf :=
  (Counter.sub_keys_sublist a b).nodup ha

lemma Counter.sub_get (a b : Counter) (ha : a.Wf) (k : Key) :
    (a.sub b).get k = a.get k - b.get k := by
  obtain ⟨l⟩ := a
  induction l with
  | nil => simp [Counter.sub, Counter.get]
  | cons e rest ih =>
    have hnd : (Counter.Wf ⟨rest⟩) := by
      simpa [Counter.Wf, Counter.keysList] using ha.of_cons
    have hmem : e.1 ∉ rest.map Prod.fst := by
      simpa [Counter.Wf, Counter.keysList] using ha.not_mem (l := rest.map Prod.fst)
    by_cases hk : e.1 = k
    · subst hk
      by_cases hlt : b.get e.1 < e.2
      · rw [show (Counter.sub ⟨e :: rest⟩ b) = ⟨(e.1, e.2 - b.get e.1) ::
            (Counter.sub ⟨rest⟩ b).items⟩ by simp [Counter.sub, List.filterMap_cons, hlt]]
        rw [Counter.get_cons, if_pos rfl, Counter.get_cons, if_pos rfl]
      · rw [show (Counter.sub ⟨e :: rest⟩ b) = ⟨(Counter.sub ⟨rest⟩ b).items⟩ by
            simp [Counter.sub, List.filterMap_cons, hlt]]
        have hz : Counter.get ⟨(Counter.sub ⟨rest⟩ b).items⟩ e.1 = 0 := by
          apply Counter.get_eq_zero
          intro hin
          exact hmem ((Counter.sub_keys_sublist ⟨rest⟩ b).subset hin)
        rw [hz, Counter.get_cons, if_pos rfl]
        omega
    · have hstep : (Counter.sub ⟨e :: rest⟩ b).get k = (Counter.sub ⟨rest⟩ b).get k := by
        by_cases hlt : b.get e.1 < e.2
        · rw [show (Counter.sub ⟨e :: rest⟩ b) = ⟨(e.1, e.2 - b.get e.1) ::
              (Counter.sub ⟨rest⟩ b).items⟩ by simp [Counter.sub, List.filterMap_cons, hlt]]
          rw [Counter.get_cons, if_neg hk]
        · rw [show (Counter.sub ⟨e :: rest⟩ b) = ⟨(Counter.sub ⟨rest⟩ b).items⟩ by
              simp [Counter.sub, List.filterMap_cons, hlt]]
      rw [hstep, Counter.get_cons, if_neg hk, ih hnd]

/-! ## Counting the per-unit events -/

lemma keyOpen_inj (a b : Key) : keyOpen a = keyOpen b ↔ a = b := by
  obtain ⟨s, sd, l⟩ := a
  obtain ⟨s', sd', l'⟩ := b
  simp [keyOpen, Event.openEv.injEq]

lemma countEvent_append (l1 l2 : List Event) (e : Event) :
    countEvent (l1 ++ l2) e = countEvent l1 e + countEvent l2 e :=
  List.countP_append _ _ _

lemma countEvent_replicate (n : Nat) (a e : Event) :
    countEvent (List.replicate n a) e = if a = e then n else 0 := by
  induction n with
  | zero => simp [countEvent]
  | succ m ih =>
    rw [List.replicate_succ]
    by_cases h : a = e
    · simp only [countEvent, List.countP_cons, h] at ih ⊢
      simp [ih]
    · simp only [countEvent, List.countP_cons, h] at ih ⊢
      simp [ih, h]

lemma countEvent_open_flatten_zero (l : List (Key × Nat)) (k : Key)
    (h : k ∉ l.map Prod.fst) :
    countEvent ((l.map (fun e => List.replicate e.2 (keyOpen e.1))).flatten) (keyOpen k) = 0 := by
  induction l with
  | nil => simp [countEvent]
  | cons e rest ih =>
    simp only [List.map_cons, List.mem_cons] at h
    push_neg at h
    rw [List.map_cons, List.flatten_cons, countEvent_append, countEvent_replicate,
      if_neg (fun hh => h.1 (((keyOpen_inj _ _).mp hh).symm)), ih h.2]

lemma countEvent_open_flatten (l : List (Key × Nat)) (k : Key)
    (hnd : (l.map Prod.fst).Nodup) :
    countEvent ((l.map (fun e => List.replicate e.2 (keyOpen e.1))).flatten) (keyOpen k)
      = Counter.get ⟨l⟩ k := by
  induction l with
  | nil => simp [countEvent, Counter.get]
  | cons e rest ih =>
    rw [List.map_cons, List.flatten_cons, countEvent_append, countEvent_replicate,
      Counter.get_cons]
    by_cases hk : e.1 = k
    · rw [if_pos ((keyOpen_inj _ _).mpr hk), if_pos hk,
        countEvent_open_flatten_zero rest k (by
          rw [← hk]
          simpa using hnd.not_mem (l := rest.map Prod.fst))]
      omega
    · rw [if_neg (fun hh => hk ((keyOpen_inj _ _).mp hh)), if_neg hk, Nat.zero_add,
        ih hnd.of_cons]

lemma countEvent_close_flatten_open (l : List (Key × Nat)) (k : Key) :
    countEvent ((l.map (fun e => List.replicate e.2 (keyClose e.1))).flatten) (keyOpen k) = 0 := by
  induction l with
  | nil => simp [countEvent]
  | cons e rest ih =>
    rw [List.map_cons, List.flatten_cons, countEvent_append, countEvent_replicate,
      if_neg (by simp [keyClose, keyOpen]), ih]

lemma countP_close_open_flatten (l : List (Key × Nat)) :
    ((l.map (fun e => List.replicate e.2 (keyOpen e.1))).flatten).countP isCloseEv = 0 := by
  induction l with
  | nil => simp
  | cons e rest ih =>
    rw [List.map_cons, List.flatten_cons, List.countP_append, ih]
    simp only [Nat.add_zero, List.countP_eq_zero]
    intro a ha
    simp [List.eq_of_mem_replicate ha, keyOpen, isCloseEv]

lemma countP_close_close_flatten (l : List (Key × Nat)) :
    ((l.map (fun e => List.replicate e.2 (keyClose e.1))).flatten).countP isCloseEv
      = (l.map Prod.snd).sum := by
  induction l with
  | nil => simp
  | cons e rest ih =>
    rw [List.map_cons, List.flatten_cons, List.countP_append, ih]
    have : (List.replicate e.2 (keyClose e.1)).countP isCloseEv = e.2 := by
      rw [List.countP_eq_length_filter, List.filter_replicate,
        if_pos (by simp [isCloseEv, keyClose]), List.length_replicate]
    rw [this]
    simp

/-- C1: for stored snapshot `A` (previous) and fresh snapshot `B` (current),
reconciliation emits, for every key `k`, exactly `max(0, B[k]-A[k])` open
events carrying `k`'s symbol, side and lot (conjuncts 1 and 2), the close
multiplicity computed for `k` is exactly `max(0, A[k]-B[k])` (conjunct 3)
and the total number of close events is the total of that counter
(conjunct 4); applying the opens as increments and the closes as decrements
to `A`'s count reproduces `B`'s count at every key (conjunct 5).
Subtraction is truncated natural subtraction, so `B.get k - A.get k` is
exactly `max(0, B[k]-A[k])`. -/
theorem reconcile_multiset_diff (A B : Counter) (hA : A.Wf) (hB : B.Wf) (k : Key) :
    countEvent (eventsOf A B) (keyOpen k) = B.get k - A.get k ∧
    (B.sub A).get k = B.get k - A.get k ∧
    (A.sub B).get k = A.get k - B.get k ∧
    (eventsOf A B).countP isCloseEv = (A.sub B).total ∧
    A.get k + (B.sub A).get k - (A.sub B).get k = B.get k := by
  have hBA := Counter.sub_get B A hB k
  have hAB := Counter.sub_get A B hA k
  refine ⟨?_, hBA, hAB, ?_, ?_⟩
  · rw [eventsOf, countEvent_append, countEvent_close_flatten_open, Nat.add_zero,
      countEvent_open_flatten _ _ (Counter.sub_wf B A hB), ← hBA]
  · rw [eventsOf, List.countP_append, countP_close_open_flatten, Nat.zero_add,
      countP_close_close_flatten]
    rfl
  · rw [hBA, hAB]
    omega

/-- Witness for C1 at concrete snapshots: previous holds one `EURUSD` buy
and two `GBPUSD` sells, current holds three `GBPUSD` sells. -/
theorem reconcile_multiset_diff_witness :
    Counter.Wf ⟨[(("EURUSD", "BUY", 1), 1), (("GBPUSD", "SELL", 2), 2)]⟩ ∧
    Counter.Wf ⟨[(("GBPUSD", "SELL", 2), 3)]⟩ ∧
    (countEvent (eventsOf ⟨[(("EURUSD", "BUY", 1), 1), (("GBPUSD", "SELL", 2), 2)]⟩
        ⟨[(("GBPUSD", "SELL", 2), 3)]⟩) (keyOpen ("GBPUSD", "SELL", 2)) = 1 ∧
      (Counter.sub ⟨[(("GBPUSD", "SELL", 2), 3)]⟩
        ⟨[(("EURUSD", "BUY", 1), 1), (("GBPUSD", "SELL", 2), 2)]⟩).get ("GBPUSD", "SELL", 2) = 1 ∧
      (Counter.sub ⟨[(("EURUSD", "BUY", 1), 1), (("GBPUSD", "SELL", 2), 2)]⟩
        ⟨[(("GBPUSD", "SELL", 2), 3)]⟩).get ("GBPUSD", "SELL", 2) = 0 ∧
      (eventsOf ⟨[(("EURUSD", "BUY", 1), 1), (("GBPUSD", "SELL", 2), 2)]⟩
        ⟨[(("GBPUSD", "SELL", 2), 3)]⟩).countP isCloseEv = 1 ∧
      2 + 1 - 0 = 3) := by
  refine ⟨by decide, by decide, ?_⟩
  have h := reconcile_multiset_diff
    ⟨[(("EURUSD", "BUY", 1), 1), (("GBPUSD", "SELL", 2), 2)]⟩
    ⟨[(("GBPUSD", "SELL", 2), 3)]⟩ (by decide) (by decide) ("GBPUSD", "SELL", 2)
  have e1 : (Counter.get ⟨[(("GBPUSD", "SELL", 2), 3)]⟩ ("GBPUSD", "SELL", 2) : Nat) = 3 := by decide
  have e2 : (Counter.get ⟨[(("EURUSD", "BUY", 1), 1), (("GBPUSD", "SELL", 2), 2)]⟩
    ("GBPUSD", "SELL", 2) : Nat) = 2 := by decide
  have e3 : (Counter.total (Counter.sub ⟨[(("EURUSD", "BUY", 1), 1), (("GBPUSD", "SELL", 2), 2)]⟩
    ⟨[(("GBPUSD", "SELL", 2), 3)]⟩) : Nat) = 1 := by decide
  rw [e1, e2, e3] at h
  obtain ⟨h1, h2, h3, h4, h5⟩ := h
  exact ⟨h1, h2, h3, h4, by omega⟩

/-! ## How `Counter(iterable)` depends on accumulation order

`Counter.ofList` is determined by the first-occurrence order of the keys
together with the per-key multiplicities; it is *not* determined by the
multiset of keys alone, which is what decides claim C7. -/

/-- Occurrences of key `k` in an accumulation sequence. -/
def keyCount (L : List Key) (k : Key) : Nat :=
  L.countP (fun b => decide (b = k))

/-- First-occurrence order of the keys of an accumulation sequence, with an
accumulator of already-seen keys. -/
def firstKeysFrom (seen : List Key) : List Key → List Key
  | [] => []
  | a :: rest =>
    if a ∈ seen then firstKeysFrom seen rest
    else a :: firstKeysFrom (a :: seen) rest

/-- First-occurrence order of the keys of an accumulation sequence. -/
def firstKeys (L : List Key) : List Key :=
  firstKeysFrom [] L

lemma get_bumpItems (a k : Key) (l : List (Key × Nat)) :
    Counter.get ⟨bumpItems a l⟩ k
      = Counter.get ⟨l⟩ k + (if a = k then 1 else 0) := by
  induction l with
  | nil =>
    by_cases h : a = k
    · simp [bumpItems, Counter.get_cons, Counter.get, h]
    · simp [bumpItems, Counter.get_cons, Counter.get, h]
  | cons e rest ih =>
    by_cases he : e.1 = a
    · rw [show bumpItems a (e :: rest) = (e.1, e.2 + 1) :: rest by simp [bumpItems, he]]
      rw [Counter.get_cons, Counter.get_cons]
      by_cases hk : e.1 = k
      · rw [if_pos hk, if_pos hk, if_pos (he.symm.trans hk)]
      · rw [if_neg hk, if_neg hk, if_neg (fun hc => hk (he.trans hc))]
        omega
    · rw [show bumpItems a (e :: rest) = e :: bumpItems a rest by simp [bumpItems, he]]
      rw [Counter.get_cons, Counter.get_cons]
      by_cases hk : e.1 = k
      · rw [if_pos hk, if_pos hk, if_neg (fun hc => he (hk.trans hc.symm))]
        omega
      · rw [if_neg hk, if_neg hk, ih]

lemma get_incr (c : Counter) (a k : Key) :
    (c.incr a).get k = c.get k + (if a = k then 1 else 0) := by
  obtain ⟨l⟩ := c
  exact get_bumpItems a k l

lemma keys_bumpItems_mem (a : Key) (l : List (Key × Nat)) (h : a ∈ l.map Prod.fst) :
    (bumpItems a l).map Prod.fst = l.map Prod.fst := by
  induction l with
  | nil => simp at h
  | cons e rest ih =>
    by_cases he : e.1 = a
    · simp [bumpItems, he]
    · have : a ∈ rest.map Prod.fst := by
        rcases List.mem_cons.mp h with h1 | h1
        · exact absurd h1.symm he
        · exact h1
      simp [bumpItems, he, ih this]

lemma keys_bumpItems_not_mem (a : Key) (l : List (Key × Nat)) (h : a ∉ l.map Prod.fst) :
    (bumpItems a l).map Prod.fst = l.map Prod.fst ++ [a] := by
  induction l with
  | nil => simp [bumpItems]
  | cons e rest ih =>
    simp only [List.map_cons, List.mem_cons] at h
    push_neg at h
    have he : ¬ e.1 = a := fun hc => h.1 hc.symm
    simp [bumpItems, he, ih h.2]

lemma keys_incr_mem (c : Counter) (a : Key) (h : a ∈ c.keysList) :
    (c.incr a).keysList = c.keysList :=
  keys_bumpItems_mem a c.items h

lemma keys_incr_not_mem (c : Counter) (a : Key) (h : a ∉ c.keysList) :
    (c.incr a).keysList = c.keysList ++ [a] :=
  keys_bumpItems_not_mem a c.items h

lemma foldl_incr_get (L : List Key) : ∀ (c : Counter) (k : Key),
    (L.foldl Counter.incr c).get k = c.get k + keyCount L k := by
  induction L with
  | nil => simp [keyCount]
  | cons a L ih =>
    intro c k
    rw [List.foldl_cons, ih, get_incr]
    rw [show keyCount (a :: L) k = (if a = k then 1 else 0) + keyCount L k by
      by_cases h : a = k
      · simp [keyCount, List.countP_cons, h]
        omega
      · simp [keyCount, List.countP_cons, h]]
    omega

lemma firstKeysFrom_congr (L : List Key) : ∀ (s1 s2 : List Key),
    (∀ x, x ∈ s1 ↔ x ∈ s2) → firstKeysFrom s1 L = firstKeysFrom s2 L := by
  induction L with
  | nil => intro s1 s2 _; rfl
  | cons a rest ih =>
    intro s1 s2 hs
    by_cases ha : a ∈ s1
    · rw [firstKeysFrom, firstKeysFrom, if_pos ha, if_pos ((hs a).mp ha), ih s1 s2 hs]
    · rw [firstKeysFrom, firstKeysFrom, if_neg ha, if_neg (fun hc => ha ((hs a).mpr hc))]
      congr 1
      apply ih
      intro x
      simp [hs x]

lemma mem_firstKeysFrom (L : List Key) : ∀ (seen : List Key) (x : Key),
    x ∈ firstKeysFrom seen L → x ∉ seen := by
  induction L with
  | nil => intro seen x hx; simp [firstKeysFrom] at hx
  | cons a rest ih =>
    intro seen x hx
    by_cases ha : a ∈ seen
    · rw [firstKeysFrom, if_pos ha] at hx
      exact ih seen x hx
    · rw [firstKeysFrom, if_neg ha] at hx
      rcases List.mem_cons.mp hx with h1 | h1
      · exact h1 ▸ ha
      · intro hc
        exact ih (a :: seen) x h1 (List.mem_cons_of_mem a hc)

lemma firstKeysFrom_subset (L : List Key) : ∀ (seen : List Key),
    firstKeysFrom seen L ⊆ L := by
  induction L with
  | nil => intro seen; simp [firstKeysFrom]
  | cons a rest ih =>
    intro seen x hx
    by_cases ha : a ∈ seen
    · rw [firstKeysFrom, if_pos ha] at hx
      exact List.mem_cons_of_mem a (ih seen hx)
    · rw [firstKeysFrom, if_neg ha] at hx
      rcases List.mem_cons.mp hx with h1 | h1
      · exact h1 ▸ List.mem_cons_self a rest
      · exact List.mem_cons_of_mem a (ih (a :: seen) h1)

lemma firstKeysFrom_nodup (L : List Key) : ∀ (seen : List Key),
    (firstKeysFrom seen L).Nodup := by
  induction L with
  | nil => intro seen; simp [firstKeysFrom]
  | cons a rest ih =>
    intro seen
    by_cases ha : a ∈ seen
    · rw [firstKeysFrom, if_pos ha]
      exact ih seen
    · rw [firstKeysFrom, if_neg ha]
      refine List.nodup_cons.mpr ⟨?_, ih (a :: seen)⟩
      intro hmem
      exact mem_firstKeysFrom rest (a :: seen) a hmem (List.mem_cons_self a seen)

lemma firstKeys_nodup (L : List Key) : (firstKeys L).Nodup :=
  firstKeysFrom_nodup L []

lemma foldl_incr_keys (L : List Key) : ∀ (c : Counter),
    (L.foldl Counter.incr c).keysList
      = c.keysList ++ firstKeysFrom c.keysList L := by
  induction L with
  | nil => simp [firstKeysFrom]
  | cons a L ih =>
    intro c
    rw [List.foldl_cons, ih]
    by_cases ha : a ∈ c.keysList
    · rw [keys_incr_mem c a ha, firstKeysFrom, if_pos ha]
    · rw [keys_incr_not_mem c a ha, firstKeysFrom, if_neg ha,
        firstKeysFrom_congr L (c.keysList ++ [a]) (a :: c.keysList)
          (by intro x; simp [List.mem_append, or_comm]),
        List.append_assoc, List.cons_append, List.nil_append]

lemma Counter.ofList_keys (L : List Key) : (Counter.ofList L).keysList = firstKeys L := by
  rw [Counter.ofList, foldl_incr_keys]
  simp [Counter.empty, Counter.keysList, firstKeys]

lemma Counter.ofList_get (L : List Key) (k : Key) :
    (Counter.ofList L).get k = keyCount L k := by
  rw [Counter.ofList, foldl_incr_get]
  simp [Counter.empty, Counter.get]

lemma Counter.ofList_wf (L : List Key) : (Counter.ofList L).Wf := by
  rw [Counter.Wf, Counter.ofList_keys]
  exact firstKeys_nodup L

lemma Counter.wf_items_eq (c : Counter) (h : c.Wf) :
    c.items = c.keysList.map (fun k => (k, c.get k)) := by
  obtain ⟨l⟩ := c
  induction l with
  | nil => rfl
  | cons e rest ih =>
    have hnd : (Counter.Wf ⟨rest⟩) := by
      simpa [Counter.Wf, Counter.keysList] using h.of_cons
    have hmem : e.1 ∉ rest.map Prod.fst := by
      simpa [Counter.Wf, Counter.keysList] using h.not_mem (l := rest.map Prod.fst)
    have ih2 : rest = (rest.map Prod.fst).map (fun k => (k, Counter.get ⟨rest⟩ k)) :=
      ih hnd
    show e :: rest = (e.1 :: rest.map Prod.fst).map (fun k => (k, Counter.get ⟨e :: rest⟩ k))
    rw [List.map_cons, Counter.get_cons, if_pos rfl]
    have htail : (rest.map Prod.fst).map (fun k => (k, Counter.get ⟨e :: rest⟩ k))
        = (rest.map Prod.fst).map (fun k => (k, Counter.get ⟨rest⟩ k)) := by
      apply List.map_congr_left
      intro k hk
      rw [Counter.get_cons, if_neg (fun hc => hmem (by rw [hc]; exact hk))]
    rw [htail, ← ih2]

lemma Counter.ofList_congr (L1 L2 : List Key)
    (hk : firstKeys L1 = firstKeys L2)
    (hc : ∀ k, keyCount L1 k = keyCount L2 k) :
    Counter.ofList L1 = Counter.ofList L2 := by
  have hitems : (Counter.ofList L1).items = (Counter.ofList L2).items := by
    rw [Counter.wf_items_eq _ (Counter.ofList_wf L1),
      Counter.wf_items_eq _ (Counter.ofList_wf L2),
      Counter.ofList_keys, Counter.ofList_keys, hk]
    apply List.map_congr_left
    intro k _
    rw [Counter.ofList_get, Counter.ofList_get, hc]
  have : (⟨(Counter.ofList L1).items⟩ : Counter) = ⟨(Counter.ofList L2).items⟩ := by
    rw [hitems]
  exact this

/-- C7 counterexample: the two accumulation sequences hold the same
multiset of keys (equal counts at every key), yet reconciliation against
the empty previous snapshot emits the two open events in different orders.
Emission order follows the insertion order of `Counter(iterable)`, which is
first-occurrence order of the accumulation sequence, not a function of the
multiset. -/
theorem emission_order_not_multiset_det :
    (∀ k, (Counter.ofList [("EURUSD", "BUY", 1), ("GBPUSD", "SELL", 2)]).get k
        = (Counter.ofList [("GBPUSD", "SELL", 2), ("EURUSD", "BUY", 1)]).get k) ∧
    eventsOf Counter.empty (Counter.ofList [("EURUSD", "BUY", 1), ("GBPUSD", "SELL", 2)]) ≠
      eventsOf Counter.empty (Counter.ofList [("GBPUSD", "SELL", 2), ("EURUSD", "BUY", 1)]) := by
  constructor
  · intro k
    rw [Counter.ofList_get, Counter.ofList_get]
    by_cases h1 : (("EURUSD", "BUY", 1) : Key) = k
    · by_cases h2 : (("GBPUSD", "SELL", 2) : Key) = k
      · simp [keyCount, List.countP_cons, h1, h2]
      · simp [keyCount, List.countP_cons, h1, h2]
    · by_cases h2 : (("GBPUSD", "SELL", 2) : Key) = k
      · simp [keyCount, List.countP_cons, h1, h2]
      · simp [keyCount, List.countP_cons, h1, h2]
  · decide

/-- C7 (amended): within each group, emission order is deterministic given
the snapshots as accumulated — it is a function of the first-occurrence
order of keys in the accumulation sequence together with the per-key
multiplicities.  Equal multisets accumulated in different first-occurrence
orders may emit in different orders (see the counterexample). -/
theorem emission_order_deterministic (prev : Counter) (L1 L2 : List Key)
    (hk : firstKeys L1 = firstKeys L2)
    (hc : ∀ k, keyCount L1 k = keyCount L2 k) :
    eventsOf prev (Counter.ofList L1) = eventsOf prev (Counter.ofList L2) := by
  rw [Counter.ofList_congr L1 L2 hk hc]

/-- Witness for the amended C7: two distinct accumulation sequences with
the same first-occurrence order and the same counts emit identically. -/
theorem emission_order_deterministic_witness :
    eventsOf Counter.empty
        (Counter.ofList [("EURUSD", "BUY", 1), ("GBPUSD", "SELL", 2), ("EURUSD", "BUY", 1)])
      = eventsOf Counter.empty
        (Counter.ofList [("EURUSD", "BUY", 1), ("EURUSD", "BUY", 1), ("GBPUSD", "SELL", 2)]) := by
  apply emission_order_deterministic
  · decide
  · intro k
    by_cases h1 : (("EURUSD", "BUY", 1) : Key) = k
    · by_cases h2 : (("GBPUSD", "SELL", 2) : Key) = k
      · simp [keyCount, List.countP_cons, h1, h2]
      · simp [keyCount, List.countP_cons, h1, h2]
    · by_cases h2 : (("GBPUSD", "SELL", 2) : Key) = k
      · simp [keyCount, List.countP_cons, h1, h2]
      · simp [keyCount, List.countP_cons, h1, h2]

/-! ## JSON serialization (`json.dumps`)

`_write_signal` serializes the payload dict twice: once with
`sort_keys=True` and default separators for the debounce signature, once
with compact separators `(",", ":")` for the published file.  The payload
dicts are flat: string values plus one float value.  Strings occurring in
payloads are ASCII without quotes, backslashes or control characters
(symbols and sides come from the uppercase-letter regexes, actions are
fixed literals), so `json.dumps` escaping is modelled by the identity on
them (escaping of `"` and `\` is still included for completeness).
`repr` of a float that is exactly a short decimal is that decimal with at
least one fractional digit, which is how the rational lot is printed. -/

/-- A flat JSON value: string or number. -/
inductive JLeaf where
  | jstr (s : String) : JLeaf
  | jnum (q : ℚ) : JLeaf
deriving DecidableEq, Repr

/-- JSON string escaping, restricted to the escapes that can occur in this
program's ASCII payloads. -/
def jescapeChars : List Char → List Char
  | [] => []
  | c :: rest =>
    if c = '"' then '\\' :: '"' :: jescapeChars rest
    else if c = '\\' then '\\' :: '\\' :: jescapeChars rest
    else c :: jescapeChars rest

/-- Escaped and quoted JSON string literal. -/
def jstrLit (s : String) : String :=
  "\"" ++ String.mk (jescapeChars s.data) ++ "\""

/-- Decimal digits of the fractional part `r / den` (`0 < r < den`),
produced by long division; `fuel` bounds the number of digits.  Every lot
in the program is a parsed literal `\d+(\.\d+)?`, whose denominator divides
a power of ten, so the division terminates well before the fuel runs out
and the digits reproduce the shortest decimal form printed by `repr`. -/
def fracDigits (fuel : Nat) (r den : Nat) : List Char :=
  match fuel with
  | 0 => []
  | fuel' + 1 =>
    if r = 0 then []
    else Char.ofNat (48 + r * 10 / den) :: fracDigits fuel' (r * 10 % den) den

/-- `repr(float)` for the nonnegative short-decimal values occurring as
lots: integer part, a dot, and the fractional digits (`"0"` when none). -/
def numRepr (q : ℚ) : String :=
  let n := q.num.toNat
  let d := q.den
  let ip := n / d
  let r := n % d
  let fr := if r = 0 then "0" else String.mk (fracDigits 40 r d)
  toString ip ++ "." ++ fr

/-- Serialize a flat JSON value. -/
def jleafDump : JLeaf → String
  | .jstr s => jstrLit s
  | .jnum q => numRepr q

/-- `sep.join(parts)`. -/
def joinSep (sep : String) : List String → String
  | [] => ""
  | [x] => x
  | x :: rest => x ++ sep ++ joinSep sep rest

/-- `json.dumps` of a flat object with the given item and key-value
separators, fields in the given order. -/
def jobjDump (itemSep kvSep : String) (fields : List (String × JLeaf)) : String :=
  "\x7b" ++ joinSep itemSep
    (fields.map (fun f => jstrLit f.1 ++ kvSep ++ jleafDump f.2)) ++ "\x7d"

/-- The payload dict of an event, in the insertion order used by
`_emit_deltas` when building it. -/
def payloadFields : Event → List (String × JLeaf)
  | .openEv s sd l =>
      [("action", .jstr "OPEN"), ("symbol", .jstr s), ("side", .jstr sd), ("lot", .jnum l)]
  | .closeEv s =>
      [("action", .jstr "CLOSE"), ("symbol", .jstr s)]

/-- Insert a field into a key-sorted field list (`sort_keys=True`). -/
def insertField (f : String × JLeaf) : List (String × JLeaf) → List (String × JLeaf)
  | [] => [f]
  | g :: rest => if f.1 < g.1 then f :: g :: rest else g :: insertField f rest

/-- Sort fields by key (insertion sort), modelling `sort_keys=True`. -/
def sortFields : List (String × JLeaf) → List (String × JLeaf)
  | [] => []
  | f :: rest => insertField f (sortFields rest)

/-- `json.dumps(payload, sort_keys=True)`: the debounce signature of an
event (default separators `", "` and `": "`). -/
def signatureOf (e : Event) : String :=
  jobjDump ", " ": " (sortFields (payloadFields e))

/-- `json.dumps(payload, separators=(",", ":"))`: the compact form written
to the signal file. -/
def dumpsCompact (e : Event) : String :=
  jobjDump "," ":" (payloadFields e)

/-! ## `_write_signal`: debounce cache, temp write, atomic replace -/

/-- The mutable state of `SignalBridge` together with the observable
filesystem and a ghost log of successful publishes.  `recent_signals` is
the insertion-ordered signature-to-timestamp dict; `signal_file` and
`temp_file` are the contents of `signal.json` and `signal.tmp` (`none`
when absent); `published` records each payload whose publish completed. -/
structure BridgeState where
  prev_positions : Counter
  recent_signals : List (String × ℚ)
  signal_file : Option String
  temp_file : Option String
  published : List Event
deriving DecidableEq, Repr

/-- The initial state set up by `SignalBridge.__init__`. -/
def initialState : BridgeState :=
  { prev_positions := Counter.empty
    recent_signals := []
    signal_file := none
    temp_file := none
    published := [] }

/-- `recent_ttl_seconds`. -/
def recentTtl : ℚ := 5

/-- The eviction comprehension: keep entries with `now - ts <= 5`
(dict comprehensions preserve insertion order). -/
def pruneCache (now : ℚ) (cache : List (String × ℚ)) : List (String × ℚ) :=
  cache.filter (fun e => decide (now - e.2 ≤ recentTtl))

/-- One call of `_write_signal(payload)` at time `now`.  `okW` tells
whether the temp-file write succeeds and `okR` whether `os.replace`
succeeds; a `false` models the call raising `OSError`.  Returns the state
after the call together with `true` when the call returned normally and
`false` when it raised.  Order of effects, as in the source: compute the
signature, prune the cache, return early when the signature is cached,
write the temp file, atomically replace the signal file (removing the temp
file), and only then record the signature in the cache. -/
def writeSignal (e : Event) (now : ℚ) (okW okR : Bool) (st : BridgeState) :
    BridgeState × Bool :=
  if signatureOf e ∈ (pruneCache now st.recent_signals).map Prod.fst then
    ({ st with recent_signals := pruneCache now st.recent_signals }, true)
  else if okW = false then
    ({ st with recent_signals := pruneCache now st.recent_signals }, false)
  else if okR = false then
    ({ st with
        recent_signals := pruneCache now st.recent_signals
        temp_file := some (dumpsCompact e) }, false)
  else
    ({ st with
        recent_signals := pruneCache now st.recent_signals ++ [(signatureOf e, now)]
        temp_file := none
        signal_file := some (dumpsCompact e)
        published := st.published ++ [e] }, true)

/-- The observable states passed through by one `_write_signal` call, in
order: entry, after eviction, after the temp-file write, after the atomic
replace (at which point the signature is recorded).  The signal file's
content changes in exactly one of these steps — the atomic replace — which
is what makes a torn read impossible. -/
def writeSignalStates (e : Event) (now : ℚ) (okW okR : Bool) (st : BridgeState) :
    List BridgeState :=
  if signatureOf e ∈ (pruneCache now st.recent_signals).map Prod.fst then
    [st, { st with recent_signals := pruneCache now st.recent_signals }]
  else if okW = false then
    [st, { st with recent_signals := pruneCache now st.recent_signals }]
  else if okR = false then
    [st, { st with recent_signals := pruneCache now st.recent_signals },
      { st with
          recent_signals := pruneCache now st.recent_signals
          temp_file := some (dumpsCompact e) }]
  else
    [st, { st with recent_signals := pruneCache now st.recent_signals },
      { st with
          recent_signals := pruneCache now st.recent_signals
          temp_file := some (dumpsCompact e) },
      { st with
          recent_signals := pruneCache now st.recent_signals ++ [(signatureOf e, now)]
          temp_file := none
          signal_file := some (dumpsCompact e)
          published := st.published ++ [e] }]

/-! ## `_emit_deltas` and the driver tick -/

/-- Run `_write_signal` over a list of payloads in order, the `i`-th call
happening at time `times i` with filesystem outcomes `okW i`, `okR i`.
Stops at the first raising call (the exception propagates out of
`_emit_deltas`), keeping the state reached so far. -/
def runWrites (times : Nat → ℚ) (okW okR : Nat → Bool) :
    Nat → List Event → BridgeState → BridgeState × Bool
  | _, [], st => (st, true)
  | i, e :: rest, st =>
    let r := writeSignal e (times i) (okW i) (okR i) st
    if r.2 then runWrites times okW okR (i + 1) rest r.1
    else (r.1, false)

/-- `_emit_deltas(current)`: compute opens and closes by counter
subtraction against the stored previous snapshot, write one signal per
unit, and only after all writes have returned replace `prev_positions`
with `current`.  A raising write aborts the remainder and leaves
`prev_positions` untouched. -/
def emitDeltas (cur : Counter) (times : Nat → ℚ) (okW okR : Nat → Bool)
    (st : BridgeState) : BridgeState × Bool :=
  if (runWrites times okW okR 0 (eventsOf st.prev_positions cur) st).2 then
    ({ (runWrites times okW okR 0 (eventsOf st.prev_positions cur) st).1 with
        prev_positions := cur }, true)
  else
    ((runWrites times okW okR 0 (eventsOf st.prev_positions cur) st).1, false)

/-- One iteration of the `run` loop: `capture` is the result of
`_read_live_positions` (`none` when it raised), after which `_emit_deltas`
runs; the surrounding `try/except` means a raising tick leaves the bridge
state as the failing statement left it and the loop continues.  Returns
the state after the tick and whether the tick completed without raising. -/
def tick (capture : Option Counter) (times : Nat → ℚ) (okW okR : Nat → Bool)
    (st : BridgeState) : BridgeState × Bool :=
  match capture with
  | none => (st, false)
  | some cur => emitDeltas cur times okW okR st

/-! ## Lemmas about the write path -/

lemma prune_keys_subset (now : ℚ) (cache : List (String × ℚ)) :
    ((pruneCache now cache).map Prod.fst) ⊆ cache.map Prod.fst := by
  intro x hx
  obtain ⟨e, he, rfl⟩ := List.mem_map.mp hx
  exact List.mem_map.mpr ⟨e, List.mem_of_mem_filter he, rfl⟩

lemma writeSignal_prev (e : Event) (now : ℚ) (okW okR : Bool) (st : BridgeState) :
    ((writeSignal e now okW okR st).1).prev_positions = st.prev_positions := by
  unfold writeSignal
  repeat' split
  all_goals rfl

lemma runWrites_prev (times : Nat → ℚ) (okW okR : Nat → Bool) :
    ∀ (events : List Event) (i : Nat) (st : BridgeState),
      ((runWrites times okW okR i events st).1).prev_positions = st.prev_positions := by
  intro events
  induction events with
  | nil => intro i st; rfl
  | cons e rest ih =>
    intro i st
    rw [runWrites]
    split
    · rw [ih]
      exact writeSignal_prev e (times i) (okW i) (okR i) st
    · exact writeSignal_prev e (times i) (okW i) (okR i) st

/-- C3: the stored previous snapshot is replaced by the current snapshot
only when every write of the tick returned; a tick that raises — capture
failure (`capture = none`) or any publish failure part-way through the
event list — leaves `prev_positions` exactly as it was, so the next tick
diffs against the last known-good snapshot. -/
lemma emitDeltas_prev (cur : Counter) (times : Nat → ℚ) (okW okR : Nat → Bool)
    (st : BridgeState) :
    (emitDeltas cur times okW okR st).1.prev_positions
      = (if (emitDeltas cur times okW okR st).2 then cur else st.prev_positions) := by
  unfold emitDeltas
  split
  · simp
  · simp [runWrites_prev]

theorem prev_snapshot_update_atomic (capture : Option Counter) (times : Nat → ℚ)
    (okW okR : Nat → Bool) (st : BridgeState) :
    ((tick capture times okW okR st).2 = false →
      (tick capture times okW okR st).1.prev_positions = st.prev_positions) ∧
    (∀ cur, capture = some cur → (tick capture times okW okR st).2 = true →
      (tick capture times okW okR st).1.prev_positions = cur) := by
  constructor
  · intro hfail
    cases capture with
    | none => rfl
    | some cur =>
      have hf : (emitDeltas cur times okW okR st).2 = false := hfail
      show (emitDeltas cur times okW okR st).1.prev_positions = st.prev_positions
      rw [emitDeltas_prev, hf]
      simp
  · intro cur hc hok
    subst hc
    have ht : (emitDeltas cur times okW okR st).2 = true := hok
    show (emitDeltas cur times okW okR st).1.prev_positions = cur
    rw [emitDeltas_prev, ht]
    simp

/-- Witness for C3: a tick whose single publish fails at the temp-file
write leaves the previous snapshot empty. -/
theorem prev_snapshot_update_atomic_witness :
    (tick (some (Counter.ofList [("EURUSD", "BUY", 1)])) (fun _ => 0)
        (fun _ => false) (fun _ => true) initialState).1.prev_positions
      = initialState.prev_positions := by
  exact (prev_snapshot_update_atomic (some (Counter.ofList [("EURUSD", "BUY", 1)]))
    (fun _ => 0) (fun _ => false) (fun _ => true) initialState).1 (by decide)

/-- C9: the debounce cache records an event's signature only after both the
temp-file write and the atomic replace have returned.  When either raises
(first conjunct) the call reports failure, the cache holds exactly the
lazily evicted entries — no insertion — the publish log is unchanged and
the signature is still absent, so a later retry of the same event (third
conjunct) is not suppressed and publishes.  When both succeed (second
conjunct) the signature is appended. -/
theorem cache_insert_only_after_replace (e : Event) (now : ℚ) (okW okR : Bool)
    (st : BridgeState)
    (hsig : signatureOf e ∉ (pruneCache now st.recent_signals).map Prod.fst) :
    ((okW = false ∨ okR = false) →
      (writeSignal e now okW okR st).2 = false ∧
      (writeSignal e now okW okR st).1.recent_signals = pruneCache now st.recent_signals ∧
      (writeSignal e now okW okR st).1.published = st.published ∧
      signatureOf e ∉ ((writeSignal e now okW okR st).1.recent_signals).map Prod.fst) ∧
    (okW = true → okR = true →
      (writeSignal e now okW okR st).1.recent_signals
        = pruneCache now st.recent_signals ++ [(signatureOf e, now)]) ∧
    ((okW = false ∨ okR = false) → ∀ now',
      (writeSignal e now' true true (writeSignal e now okW okR st).1).1.published
        = st.published ++ [e]) := by
  have hfail : (okW = false ∨ okR = false) →
      (writeSignal e now okW okR st).1
        = { st with
              recent_signals := pruneCache now st.recent_signals
              temp_file := if okW then some (dumpsCompact e) else st.temp_file } ∧
      (writeSignal e now okW okR st).2 = false := by
    intro hor
    unfold writeSignal
    rcases hor with h | h
    · subst h
      simp [hsig]
    · subst h
      cases okW with
      | false => simp [hsig]
      | true => simp [hsig]
  refine ⟨?_, ?_, ?_⟩
  · intro hor
    obtain ⟨h1, h2⟩ := hfail hor
    rw [h1, h2]
    exact ⟨rfl, rfl, rfl, hsig⟩
  · intro hw hr
    subst hw; subst hr
    unfold writeSignal
    simp [hsig]
  · intro hor now'
    obtain ⟨h1, _⟩ := hfail hor
    rw [h1]
    unfold writeSignal
    have hsub : signatureOf e ∉
        ((pruneCache now' (pruneCache now st.recent_signals)).map Prod.fst) :=
      fun hc => hsig (prune_keys_subset now' _ hc)
    simp [hsub]

/-- Witness for C9: the temp-file write fails for a close signal; the call
reports failure and a retry three seconds later publishes. -/
theorem cache_insert_only_after_replace_witness :
    (writeSignal (Event.closeEv "EURUSD") 0 false true initialState).2 = false ∧
    (writeSignal (Event.closeEv "EURUSD") 3 true true
        (writeSignal (Event.closeEv "EURUSD") 0 false true initialState).1).1.published
      = [Event.closeEv "EURUSD"] := by
  have h := cache_insert_only_after_replace (Event.closeEv "EURUSD") 0 false true
    initialState (by simp [initialState, pruneCache])
  exact ⟨(h.1 (Or.inl rfl)).1, by simpa using h.2.2 (Or.inl rfl) 3⟩

/-- C2: the write path first evicts every cache entry strictly older than
five seconds relative to the call time and then suppresses exactly when the
signature is in the pruned cache (first conjunct, for every state and call
time).  Consequently, for a signature not initially cached: the first call
publishes (second conjunct), a second identical call within five seconds is
suppressed so the pair yields exactly one publish (third conjunct), and a
second call more than five seconds later — e.g. six — publishes again,
yielding two (fourth conjunct). -/
theorem debounce_window (e : Event) (st : BridgeState) (t0 t1 : ℚ)
    (hsig : signatureOf e ∉ (pruneCache t0 st.recent_signals).map Prod.fst) :
    (∀ (st' : BridgeState) (now : ℚ),
      (writeSignal e now true true st').1.published =
        (if signatureOf e ∈ (pruneCache now st'.recent_signals).map Prod.fst
         then st'.published else st'.published ++ [e]) ∧
      (writeSignal e now true true st').1.recent_signals =
        (if signatureOf e ∈ (pruneCache now st'.recent_signals).map Prod.fst
         then pruneCache now st'.recent_signals
         else pruneCache now st'.recent_signals ++ [(signatureOf e, now)])) ∧
    ((writeSignal e t0 true true st).1.published = st.published ++ [e]) ∧
    (t1 - t0 ≤ recentTtl →
      (writeSignal e t1 true true (writeSignal e t0 true true st).1).1.published
        = st.published ++ [e]) ∧
    (recentTtl < t1 - t0 →
      (writeSignal e t1 true true (writeSignal e t0 true true st).1).1.published
        = st.published ++ [e, e]) := by
  have hgen : ∀ (st' : BridgeState) (now : ℚ),
      (writeSignal e now true true st').1.published =
        (if signatureOf e ∈ (pruneCache now st'.recent_signals).map Prod.fst
         then st'.published else st'.published ++ [e]) ∧
      (writeSignal e now true true st').1.recent_signals =
        (if signatureOf e ∈ (pruneCache now st'.recent_signals).map Prod.fst
         then pruneCache now st'.recent_signals
         else pruneCache now st'.recent_signals ++ [(signatureOf e, now)]) := by
    intro st' now
    by_cases h : signatureOf e ∈ (pruneCache now st'.recent_signals).map Prod.fst
    · unfold writeSignal
      simp [h]
    · unfold writeSignal
      simp [h]
  have h1 : (writeSignal e t0 true true st).1
      = { st with
            recent_signals := pruneCache t0 st.recent_signals ++ [(signatureOf e, t0)]
            temp_file := none
            signal_file := some (dumpsCompact e)
            published := st.published ++ [e] } := by
    unfold writeSignal
    simp [hsig]
  refine ⟨hgen, by rw [h1], ?_, ?_⟩
  · intro hle
    rw [(hgen _ t1).1, h1]
    have hmem : signatureOf e ∈
        (pruneCache t1 (pruneCache t0 st.recent_signals ++ [(signatureOf e, t0)])).map
          Prod.fst := by
      refine List.mem_map.mpr ⟨(signatureOf e, t0), ?_, rfl⟩
      refine List.mem_filter.mpr ⟨by simp, by simpa using hle⟩
    simp [hmem]
  · intro hgt
    rw [(hgen _ t1).1, h1]
    have hmem : signatureOf e ∉
        (pruneCache t1 (pruneCache t0 st.recent_signals ++ [(signatureOf e, t0)])).map
          Prod.fst := by
      intro hc
      rw [pruneCache, List.filter_append, List.map_append] at hc
      rcases List.mem_append.mp hc with h | h
      · exact hsig (prune_keys_subset t1 _ h)
      · rw [show List.filter (fun x => decide (t1 - x.2 ≤ recentTtl))
            [(signatureOf e, t0)] = [] by simp; linarith] at h
        simp at h
    simp [hmem]

/-- Witness for C2: two identical close signals at times 0 and 3 produce
one publish; at times 0 and 6 they produce two. -/
theorem debounce_window_witness :
    (writeSignal (Event.closeEv "EURUSD") 3 true true
        (writeSignal (Event.closeEv "EURUSD") 0 true true initialState).1).1.published
      = [Event.closeEv "EURUSD"] ∧
    (writeSignal (Event.closeEv "EURUSD") 6 true true
        (writeSignal (Event.closeEv "EURUSD") 0 true true initialState).1).1.published
      = [Event.closeEv "EURUSD", Event.closeEv "EURUSD"] := by
  have hs : signatureOf (Event.closeEv "EURUSD")
      ∉ (pruneCache 0 initialState.recent_signals).map Prod.fst := by
    simp [initialState, pruneCache]
  constructor
  · have h := (debounce_window (Event.closeEv "EURUSD") initialState 0 3 hs).2.2.1
      (by norm_num [recentTtl])
    simpa using h
  · have h := (debounce_window (Event.closeEv "EURUSD") initialState 0 6 hs).2.2.2
      (by norm_num [recentTtl])
    simpa using h

/-- C4: every publish writes the serialized payload to the temp location
and then atomically replaces the signal file: in every observable state of
a `_write_signal` call the signal file holds either its prior content or
the complete compact serialization, never anything else (first conjunct);
the last observable state is the state the call returns (second conjunct);
and a call that actually publishes leaves the full serialization in the
signal file (third conjunct).  A reader polling the file therefore never
sees a partially written record. -/
theorem atomic_publish (e : Event) (now : ℚ) (okW okR : Bool) (st : BridgeState) :
    (∀ s ∈ writeSignalStates e now okW okR st,
      s.signal_file = st.signal_file ∨ s.signal_file = some (dumpsCompact e)) ∧
    ((writeSignalStates e now okW okR st).getLast? = some (writeSignal e now okW okR st).1) ∧
    (signatureOf e ∉ (pruneCache now st.recent_signals).map Prod.fst →
      okW = true → okR = true →
      (writeSignal e now okW okR st).1.signal_file = some (dumpsCompact e)) := by
  refine ⟨?_, ?_, ?_⟩
  · intro s hs
    unfold writeSignalStates at hs
    split at hs
    · simp only [List.mem_cons, List.not_mem_nil, or_false] at hs
      rcases hs with rfl | rfl
      · exact Or.inl rfl
      · exact Or.inl rfl
    · split at hs
      · simp only [List.mem_cons, List.not_mem_nil, or_false] at hs
        rcases hs with rfl | rfl
        · exact Or.inl rfl
        · exact Or.inl rfl
      · split at hs
        · simp only [List.mem_cons, List.not_mem_nil, or_false] at hs
          rcases hs with rfl | rfl | rfl
          · exact Or.inl rfl
          · exact Or.inl rfl
          · exact Or.inl rfl
        · simp only [List.mem_cons, List.not_mem_nil, or_false] at hs
          rcases hs with rfl | rfl | rfl | rfl
          · exact Or.inl rfl
          · exact Or.inl rfl
          · exact Or.inl rfl
          · exact Or.inr rfl
  · unfold writeSignalStates writeSignal
    repeat' split
    all_goals rfl
  · intro hsig hw hr
    subst hw
    subst hr
    unfold writeSignal
    simp [hsig]

/-- Witness for C4 at a concrete publish: an open signal published into the
initial state. -/
theorem atomic_publish_witness :
    (∀ s ∈ writeSignalStates (Event.openEv "EURUSD" "BUY" 1) 0 true true initialState,
      s.signal_file = initialState.signal_file ∨
        s.signal_file = some (dumpsCompact (Event.openEv "EURUSD" "BUY" 1))) ∧
    (writeSignal (Event.openEv "EURUSD" "BUY" 1) 0 true true initialState).1.signal_file
      = some (dumpsCompact (Event.openEv "EURUSD" "BUY" 1)) := by
  have h := atomic_publish (Event.openEv "EURUSD" "BUY" 1) 0 true true initialState
  exact ⟨h.1, h.2.2 (by simp [initialState, pruneCache]) rfl rfl⟩

/-! ## Within-tick suppression of duplicate per-unit events (C8) -/

lemma writeSignal_true_cases (e : Event) (now : ℚ) (st : BridgeState) :
    (signatureOf e ∈ (pruneCache now st.recent_signals).map Prod.fst ∧
      (writeSignal e now true true st).1
        = { st with recent_signals := pruneCache now st.recent_signals }) ∨
    (signatureOf e ∉ (pruneCache now st.recent_signals).map Prod.fst ∧
      (writeSignal e now true true st).1
        = { st with
              recent_signals := pruneCache now st.recent_signals ++ [(signatureOf e, now)]
              temp_file := none
              signal_file := some (dumpsCompact e)
              published := st.published ++ [e] }) := by
  by_cases h : signatureOf e ∈ (pruneCache now st.recent_signals).map Prod.fst
  · left
    refine ⟨h, ?_⟩
    unfold writeSignal
    simp [h]
  · right
    refine ⟨h, ?_⟩
    unfold writeSignal
    simp [h]

lemma writeSignal_ok (e : Event) (now : ℚ) (st : BridgeState) :
    (writeSignal e now true true st).2 = true := by
  unfold writeSignal
  split
  · rfl
  · simp

lemma countEvent_single_ne (e p : Event) (h : e ≠ p) :
    countEvent [e] p = 0 := by
  simp [countEvent, List.countP_cons, h]

lemma countEvent_single_eq (p : Event) : countEvent [p] p = 1 := by
  simp [countEvent, List.countP_cons]

/-- Once the signature of `p` sits in the cache with a timestamp within the
debounce window of every remaining call, no later write of the tick
publishes `p` again, and the cache entry survives the tick. -/
lemma runWrites_no_republish (p : Event) (times : Nat → ℚ) :
    ∀ (events : List Event) (i : Nat) (st : BridgeState) (t0 : ℚ),
      (signatureOf p, t0) ∈ st.recent_signals →
      (∀ j, i ≤ j → times j - t0 ≤ recentTtl) →
      (∀ e' ∈ events, e' ≠ p → signatureOf e' ≠ signatureOf p) →
      countEvent ((runWrites times (fun _ => true) (fun _ => true) i events st).1).published p
          = countEvent st.published p ∧
      (signatureOf p, t0) ∈
        ((runWrites times (fun _ => true) (fun _ => true) i events st).1).recent_signals := by
  intro events
  induction events with
  | nil => intro i st t0 hmem _ _; exact ⟨rfl, hmem⟩
  | cons e rest ih =>
    intro i st t0 hmem htimes hcol
    have hkeep : (signatureOf p, t0) ∈ pruneCache (times i) st.recent_signals :=
      List.mem_filter.mpr ⟨hmem, by simpa using htimes i (Nat.le_refl i)⟩
    have hkey : signatureOf p ∈ (pruneCache (times i) st.recent_signals).map Prod.fst :=
      List.mem_map.mpr ⟨_, hkeep, rfl⟩
    have htimes' : ∀ j, i + 1 ≤ j → times j - t0 ≤ recentTtl :=
      fun j hj => htimes j (Nat.le_of_succ_le hj)
    have hcol' : ∀ e' ∈ rest, e' ≠ p → signatureOf e' ≠ signatureOf p :=
      fun e' he' => hcol e' (List.mem_cons_of_mem e he')
    rw [runWrites, if_pos (writeSignal_ok e (times i) st)]
    rcases writeSignal_true_cases e (times i) st with ⟨_, heq⟩ | ⟨hnot, heq⟩
    · rw [heq]
      exact ih (i + 1) _ t0 hkeep htimes' hcol'
    · have hep : e ≠ p := by
        intro hc
        subst hc
        exact hnot hkey
      rw [heq]
      obtain ⟨h1, h2⟩ := ih (i + 1)
        { st with
            recent_signals := pruneCache (times i) st.recent_signals ++ [(signatureOf e, times i)]
            temp_file := none
            signal_file := some (dumpsCompact e)
            published := st.published ++ [e] }
        t0 (List.mem_append_left _ hkeep) htimes' hcol'
      refine ⟨?_, h2⟩
      rw [h1]
      show countEvent (st.published ++ [e]) p = countEvent st.published p
      rw [countEvent_append, countEvent_single_ne e p hep]
      omega

/-- If the signature of `p` is not yet cached, running the tick's writes
over a list of payloads that contains `p` (each write succeeding, all call
times within the debounce window of each other) publishes `p` exactly
once. -/
lemma runWrites_publish_once (p : Event) (times : Nat → ℚ) :
    ∀ (events : List Event) (i : Nat) (st : BridgeState),
      signatureOf p ∉ st.recent_signals.map Prod.fst →
      (∀ j k, j ≤ k → times k - times j ≤ recentTtl) →
      (∀ e' ∈ events, e' ≠ p → signatureOf e' ≠ signatureOf p) →
      p ∈ events →
      countEvent ((runWrites times (fun _ => true) (fun _ => true) i events st).1).published p
        = countEvent st.published p + 1 := by
  intro events
  induction events with
  | nil => intro i st _ _ _ hp; simp at hp
  | cons e rest ih =>
    intro i st hsig htimes hcol hp
    have hcol' : ∀ e' ∈ rest, e' ≠ p → signatureOf e' ≠ signatureOf p :=
      fun e' he' => hcol e' (List.mem_cons_of_mem e he')
    have hsig_pruned : signatureOf p ∉ (pruneCache (times i) st.recent_signals).map Prod.fst :=
      fun hc => hsig (prune_keys_subset (times i) _ hc)
    rw [runWrites, if_pos (writeSignal_ok e (times i) st)]
    by_cases hep : e = p
    · subst hep
      rcases writeSignal_true_cases e (times i) st with ⟨hmem, _⟩ | ⟨_, heq⟩
      · exact absurd hmem hsig_pruned
      · rw [heq]
        obtain ⟨h1, _⟩ := runWrites_no_republish e times rest (i + 1)
          { st with
              recent_signals :=
                pruneCache (times i) st.recent_signals ++ [(signatureOf e, times i)]
              temp_file := none
              signal_file := some (dumpsCompact e)
              published := st.published ++ [e] }
          (times i) (List.mem_append_right _ (List.mem_singleton.mpr rfl))
          (fun j hj => htimes i j (Nat.le_trans (Nat.le_succ i) hj))
          hcol'
        rw [h1]
        show countEvent (st.published ++ [e]) e = countEvent st.published e + 1
        rw [countEvent_append, countEvent_single_eq]
    · have hsigne : signatureOf e ≠ signatureOf p := hcol e (List.mem_cons_self e rest) hep
      have hp' : p ∈ rest := by
        rcases List.mem_cons.mp hp with h | h
        · exact absurd h.symm hep
        · exact h
      rcases writeSignal_true_cases e (times i) st with ⟨_, heq⟩ | ⟨_, heq⟩
      · rw [heq]
        exact ih (i + 1) _ hsig_pruned htimes hcol' hp'
      · rw [heq]
        have hsig' : signatureOf p ∉
            ((pruneCache (times i) st.recent_signals ++ [(signatureOf e, times i)]).map
              Prod.fst) := by
          rw [List.map_append]
          intro hc
          rcases List.mem_append.mp hc with h | h
          · exact hsig_pruned h
          · simp at h
            exact hsigne h.symm
        rw [ih (i + 1) _ hsig' htimes hcol' hp']
        show countEvent (st.published ++ [e]) p + 1 = countEvent st.published p + 1
        rw [countEvent_append, countEvent_single_ne e p hep]

lemma mem_events_of_get_pos (prev cur : Counter) (k : Key)
    (h : 0 < (cur.sub prev).get k) : keyOpen k ∈ eventsOf prev cur := by
  unfold Counter.get at h
  cases hf : (cur.sub prev).items.find? (fun e => decide (e.1 = k)) with
  | none => rw [hf] at h; simp at h
  | some e =>
    rw [hf] at h
    have h2 : 0 < e.2 := by simpa using h
    have hk : e.1 = k := by
      have := List.find?_some hf
      simpa using this
    have hmem : e ∈ (cur.sub prev).items := List.mem_of_find?_eq_some hf
    unfold eventsOf
    apply List.mem_append_left
    apply List.mem_flatten.mpr
    refine ⟨List.replicate e.2 (keyOpen e.1), List.mem_map.mpr ⟨e, hmem, rfl⟩, ?_⟩
    rw [hk]
    exact List.mem_replicate.mpr ⟨by omega, rfl⟩

/-- C8 (amended): in a tick whose writes all succeed and whose call times
lie within the debounce window of each other, a key `k` whose count excess
is `n ≥ 2` leads to *at most* one written open signal for `k`; it is
exactly one — the first per-unit event — precisely when `k`'s signature is
not already in the debounce cache when the tick starts (the collision
hypothesis, that no other payload of the tick shares `k`'s signature, in
fact always holds because distinct payloads serialize differently).  The
remaining `n - 1` per-unit events find the just-inserted signature in the
cache and are suppressed.  When the signature is already cached at tick
start, even the first unit is suppressed and nothing is written (see the
counterexample). -/
theorem open_excess_single_publish (cur : Counter) (times : Nat → ℚ) (st : BridgeState)
    (k : Key) (n : Nat)
    (hn : 2 ≤ n)
    (hcount : (cur.sub st.prev_positions).get k = n)
    (hsig : signatureOf (keyOpen k) ∉ st.recent_signals.map Prod.fst)
    (hcol : ∀ e' ∈ eventsOf st.prev_positions cur, e' ≠ keyOpen k →
      signatureOf e' ≠ signatureOf (keyOpen k))
    (htimes : ∀ j j', j ≤ j' → times j' - times j ≤ recentTtl) :
    countEvent
        ((emitDeltas cur times (fun _ => true) (fun _ => true) st).1).published
        (keyOpen k)
      = countEvent st.published (keyOpen k) + 1 := by
  have hmem : keyOpen k ∈ eventsOf st.prev_positions cur :=
    mem_events_of_get_pos st.prev_positions cur k (by omega)
  have hmain := runWrites_publish_once (keyOpen k) times
    (eventsOf st.prev_positions cur) 0 st hsig htimes hcol hmem
  unfold emitDeltas
  split
  · exact hmain
  · exact hmain

/-- C8 counterexample: tick 1 opens one `EURUSD` buy (one publish, caching
the signature).  Tick 2, two seconds later, observes three such positions:
the excess for the key is `n = 2`, yet *neither* of the two per-unit open
events is written — both are suppressed by the signature cached in tick 1 —
while the claim asserts the first of the `n` events is always written. -/
theorem open_excess_single_publish_cex :
    ((Counter.ofList [("EURUSD", "BUY", 1), ("EURUSD", "BUY", 1), ("EURUSD", "BUY", 1)]).sub
        (emitDeltas (Counter.ofList [("EURUSD", "BUY", 1)]) (fun _ => 0)
          (fun _ => true) (fun _ => true) initialState).1.prev_positions).get
        ("EURUSD", "BUY", 1) = 2 ∧
    (emitDeltas (Counter.ofList [("EURUSD", "BUY", 1)]) (fun _ => 0)
        (fun _ => true) (fun _ => true) initialState).1.published
      = [keyOpen ("EURUSD", "BUY", 1)] ∧
    (emitDeltas
        (Counter.ofList [("EURUSD", "BUY", 1), ("EURUSD", "BUY", 1), ("EURUSD", "BUY", 1)])
        (fun _ => 2) (fun _ => true) (fun _ => true)
        (emitDeltas (Counter.ofList [("EURUSD", "BUY", 1)]) (fun _ => 0)
          (fun _ => true) (fun _ => true) initialState).1).1.published
      = [keyOpen ("EURUSD", "BUY", 1)] := by
  refine ⟨by decide, by decide, by with_unfolding_all decide⟩

/-- Witness for the amended C8: starting from the initial state with two
units of excess for one key, exactly one open signal is published. -/
theorem open_excess_single_publish_witness :
    countEvent
        ((emitDeltas (Counter.ofList [("EURUSD", "BUY", 1), ("EURUSD", "BUY", 1)])
          (fun _ => 0) (fun _ => true) (fun _ => true) initialState).1).published
        (keyOpen ("EURUSD", "BUY", 1))
      = countEvent initialState.published (keyOpen ("EURUSD", "BUY", 1)) + 1 := by
  apply open_excess_single_publish
  · exact Nat.le_refl 2
  · decide
  · simp [initialState]
  · decide
  · intro j j' _
    norm_num [recentTtl]

/-! ## The published JSON shape (C6) and the extractor claims (C5, C10) -/

lemma jstrLit_data (s : String) :
    (jstrLit s).data = '"' :: (jescapeChars s.data ++ ['"']) := by
  show ("\"" ++ String.mk (jescapeChars s.data) ++ "\"").data = _
  simp only [String.data_append]
  simp

lemma sideHere_range (prev : Option Char) (l g : List Char) :
    sideHere prev l = some g → g = ['B', 'U', 'Y'] ∨ g = ['S', 'E', 'L', 'L'] := by
  unfold sideHere
  split
  · split
    · intro h
      injection h with h'
      exact Or.inl h'.symm
    · split
      · intro h
        injection h with h'
        exact Or.inr h'.symm
      · intro h
        exact absurd h (by simp)
  · intro h
    exact absurd h (by simp)

lemma sideSearchGo_range : ∀ (l : List Char) (prev : Option Char) (g : List Char),
    sideSearchGo prev l = some g → g = ['B', 'U', 'Y'] ∨ g = ['S', 'E', 'L', 'L'] := by
  intro l
  induction l with
  | nil => intro prev g h; simp [sideSearchGo] at h
  | cons c rest ih =>
    intro prev g h
    rw [sideSearchGo] at h
    cases hh : sideHere prev (c :: rest) with
    | some g' =>
      rw [hh] at h
      injection h with h'
      subst h'
      exact sideHere_range _ _ _ hh
    | none =>
      rw [hh] at h
      exact ih (some c) g h

/-- Any record produced by `_extract_single_record` carries side `BUY` or
`SELL`: the side field is the text of `SIDE_PATTERN`'s group 1. -/
lemma extractSingle_side (t : String) (r : Position) :
    extractSingle t = some r → r.side = "BUY" ∨ r.side = "SELL" := by
  intro h
  unfold extractSingle extractSingleChars at h
  dsimp only at h
  cases h1 : symbolSearch (upperChars t.data) with
  | none => rw [h1] at h; simp at h
  | some sym =>
    rw [h1] at h
    cases h2 : sideSearch (upperChars t.data) with
    | none => rw [h2] at h; simp at h
    | some sd =>
      rw [h2] at h
      cases h3 : lotSearch t.data with
      | none => rw [h3] at h; simp at h
      | some num =>
        rw [h3] at h
        simp only [] at h
        split at h
        · exact absurd h (by simp)
        · injection h with h'
          subst h'
          rcases sideSearchGo_range _ _ _ h2 with rfl | rfl
          · left
            show String.mk ['B', 'U', 'Y'] = "BUY"
            decide
          · right
            show String.mk ['S', 'E', 'L', 'L'] = "SELL"
            decide

/-- C6: the compact serialization written by the publisher is exactly
`{"action":"CLOSE","symbol":<string>}` for a close — only the symbol
survives in the payload (the `Event.closeEv` constructor carries nothing
else) — and exactly `{"action":"OPEN","symbol":<string>,"side":...,
"lot":<number>}` for an open, with no whitespace (conjuncts 1 and 2,
stated on the character sequences); every side string produced by the
extractor — hence every side field a published open can carry — is `BUY`
or `SELL` (conjuncts 3 and 4). -/
theorem publish_json_shape :
    (∀ s, (dumpsCompact (Event.closeEv s)).data
        = "\x7b\"action\":\"CLOSE\",\"symbol\":\"".data ++ jescapeChars s.data
          ++ "\"\x7d".data) ∧
    (∀ s sd l, (dumpsCompact (Event.openEv s sd l)).data
        = "\x7b\"action\":\"OPEN\",\"symbol\":\"".data ++ jescapeChars s.data
          ++ "\",\"side\":\"".data ++ jescapeChars sd.data
          ++ "\",\"lot\":".data ++ (numRepr l).data ++ "\x7d".data) ∧
    (∀ cs g, sideSearch cs = some g → g = ['B', 'U', 'Y'] ∨ g = ['S', 'E', 'L', 'L']) ∧
    (∀ t r, extractSingle t = some r → r.side = "BUY" ∨ r.side = "SELL") := by
  refine ⟨?_, ?_, fun cs g h => sideSearchGo_range cs none g h, extractSingle_side⟩
  · intro s
    have base : dumpsCompact (Event.closeEv s)
        = "\x7b" ++ ((jstrLit "action" ++ ":" ++ jstrLit "CLOSE") ++ ","
            ++ (jstrLit "symbol" ++ ":" ++ jstrLit s)) ++ "\x7d" := rfl
    rw [base]
    simp only [String.data_append, jstrLit_data]
    rw [show jescapeChars ['a', 'c', 't', 'i', 'o', 'n'] = ['a', 'c', 't', 'i', 'o', 'n']
        from by decide,
      show jescapeChars ['C', 'L', 'O', 'S', 'E'] = ['C', 'L', 'O', 'S', 'E'] from by decide,
      show jescapeChars ['s', 'y', 'm', 'b', 'o', 'l'] = ['s', 'y', 'm', 'b', 'o', 'l']
        from by decide]
    simp
  · intro s sd l
    have base : dumpsCompact (Event.openEv s sd l)
        = "\x7b" ++ ((jstrLit "action" ++ ":" ++ jstrLit "OPEN") ++ ","
            ++ ((jstrLit "symbol" ++ ":" ++ jstrLit s) ++ ","
              ++ ((jstrLit "side" ++ ":" ++ jstrLit sd) ++ ","
                ++ (jstrLit "lot" ++ ":" ++ numRepr l)))) ++ "\x7d" := rfl
    rw [base]
    simp only [String.data_append, jstrLit_data]
    rw [show jescapeChars ['a', 'c', 't', 'i', 'o', 'n'] = ['a', 'c', 't', 'i', 'o', 'n']
        from by decide,
      show jescapeChars ['O', 'P', 'E', 'N'] = ['O', 'P', 'E', 'N'] from by decide,
      show jescapeChars ['s', 'y', 'm', 'b', 'o', 'l'] = ['s', 'y', 'm', 'b', 'o', 'l']
        from by decide,
      show jescapeChars ['s', 'i', 'd', 'e'] = ['s', 'i', 'd', 'e'] from by decide,
      show jescapeChars ['l', 'o', 't'] = ['l', 'o', 't'] from by decide]
    simp

/-- Witness for C6: the close serialization at symbol `EURUSD`, and the
side of the record extracted from `"EURUSD BUY lot:1"` is `BUY` or
`SELL`. -/
theorem publish_json_shape_witness :
    (dumpsCompact (Event.closeEv "EURUSD")).data
      = "\x7b\"action\":\"CLOSE\",\"symbol\":\"".data ++ jescapeChars "EURUSD".data
        ++ "\"\x7d".data ∧
    ((⟨"EURUSD", "BUY", 1⟩ : Position).side = "BUY" ∨
      (⟨"EURUSD", "BUY", 1⟩ : Position).side = "SELL") := by
  have h := publish_json_shape
  exact ⟨h.1 "EURUSD", h.2.2.2 "EURUSD BUY lot:1" ⟨"EURUSD", "BUY", 1⟩ (by decide)⟩

/-- C5 counterexample: the extractor's output on the three fragments is not
exactly the single record `(GBPUSD, SELL, 2.0)` — the sliding window that
starts at the `"SELL"` token also matches, because `SELL` itself fits the
symbol grammar (`[A-Z]{3,7}`), producing a second record
`(SELL, SELL, 2.0)`. -/
theorem window_recovery_not_exact :
    extractPositionsFromTexts ["GBPUSD", "SELL", "lot: 2"]
      ≠ [⟨"GBPUSD", "SELL", 2⟩] := by
  decide

/-- C5 (amended): no single fragment matches on its own, and the
sliding-window path over the concatenated token stream recovers the record
`(GBPUSD, SELL, 2.0)` — alongside a spurious record `(SELL, SELL, 2.0)`
produced by the window starting at the side token, whose `SELL` token also
matches the symbol grammar.  The full output is exactly these two
records. -/
theorem window_recovery :
    extractSingle "GBPUSD" = none ∧
    extractSingle "SELL" = none ∧
    extractSingle "lot: 2" = none ∧
    extractPositionsFromTexts ["GBPUSD", "SELL", "lot: 2"]
      = [⟨"GBPUSD", "SELL", 2⟩, ⟨"SELL", "SELL", 2⟩] := by
  refine ⟨by decide, by decide, by decide, by decide⟩

/-- C10 counterexample: the fragment `"EURUSD BUY 0 3"` contains a symbol
token, a side token and the bare, label-less, strictly positive decimal
`3`, yet the extractor produces no record at all: `LOT_PATTERN`'s leftmost
match is the earlier bare decimal `0` (third conjunct), and the zero size
aborts the record. -/
theorem lot_bare_decimal_cex :
    symbolSearch (upperChars "EURUSD BUY 0 3".data) = some "EURUSD".data ∧
    sideSearch (upperChars "EURUSD BUY 0 3".data) = some "BUY".data ∧
    lotSearch "EURUSD BUY 0 3".data = some ['0'] ∧
    extractSingle "EURUSD BUY 0 3" = none := by
  refine ⟨by decide, by decide, by decide, by decide⟩

/-- C10 (amended): the size label is optional — a bare decimal with no
`lot`/`volume`/`vol` label satisfies `LOT_PATTERN` — and the extractor uses
the *leftmost* size-token match of the fragment as the size: whenever the
symbol and side searches succeed and the leftmost `LOT_PATTERN` match
parses to a strictly positive value, a record with exactly those three
fields is produced. -/
theorem lot_label_optional (t : String) (sym sd num : List Char)
    (hsym : symbolSearch (upperChars t.data) = some sym)
    (hsd : sideSearch (upperChars t.data) = some sd)
    (hnum : lotSearch t.data = some num)
    (hpos : 0 < ratOfNumStr num) :
    extractSingle t = some ⟨String.mk sym, String.mk sd, ratOfNumStr num⟩ := by
  unfold extractSingle extractSingleChars
  dsimp only
  rw [hsym, hsd, hnum]
  simp only []
  rw [if_neg (not_le.mpr hpos)]

/-- Witness for the amended C10: `"EURUSD BUY 3"` has no size label at all
and yields the record `(EURUSD, BUY, 3.0)` from the bare decimal. -/
theorem lot_label_optional_witness :
    extractSingle "EURUSD BUY 3" = some ⟨"EURUSD", "BUY", 3⟩ := by
  have h := lot_label_optional "EURUSD BUY 3" "EURUSD".data "BUY".data ['3']
    (by decide) (by decide) (by decide) (by decide)
  rw [h]
  decide
